import Mathlib

/-!
Verification development for the agent-to-agent invocation core of
`ai-dial-mas-mesh` (`src/task/tools/deployment/base_agent_tool.py`).

The embedding mirrors `BaseAgentTool._prepare_messages` (the History
Propagator) and the chunk-consumption loop of `BaseAgentTool._execute`
(the Stream Reconstructor and result assembly).  Python values held in
`customContent.state` are modelled by the inductive `PyVal`, together
with Python's truthiness.  Fallible source operations (an `IndexError`
on an empty transcript) are modelled with `Option`.
-/

namespace MasMesh

/-- Opaque Python/JSON value as stored in `customContent.state`
and in attachments, with Python truthiness.  Mappings keep insertion
order, as Python dicts do. -/
inductive PyVal where
  | null
  | bool (b : Bool)
  | int (n : Int)
  | str (s : String)
  | list (xs : List PyVal)
  | dict (entries : List (String × PyVal))

/-- Python truthiness of a `PyVal`: `None`, `False`, `0`, `""`, `[]`, `{}`
are falsy, everything else truthy. -/
def PyVal.truthy : PyVal → Bool
  | .null => false
  | .bool b => b
  | .int n => n != 0
  | .str s => s != ""
  | .list xs => !xs.isEmpty
  | .dict es => !es.isEmpty

/-- Python dict lookup `v.get(k)`: the first entry with key `k`,
`None` (here: `Option.none`) when absent.  The source only ever calls
`.get` on mapping-valued states; a non-mapping yields `none` here. -/
def dictGet (v : PyVal) (k : String) : Option PyVal :=
  match v with
  | .dict es => (es.find? (fun p => p.1 == k)).map (fun p => p.2)
  | _ => Option.none

/-- Truthiness of an optional Python value (`None` is falsy). -/
def optTruthy (o : Option PyVal) : Bool :=
  match o with
  | Option.none => false
  | some v => v.truthy

/-- Conversation roles from `aidial_sdk.chat_completion.Role`. -/
inductive Role where
  | user
  | assistant
  | tool
  | system
  deriving DecidableEq, Repr

/-- CustomContent holds an optional state mapping (keyed by callee identity;
after narrowing it may hold an arbitrary sub-state value) and optional
attachment list.  Attachments are opaque and passed through verbatim. -/
structure CustomContent where
  state : Option PyVal
  attachments : Option (List PyVal)

/-- A conversation turn.  `Option` fields model pydantic optional fields;
`dict(exclude_none=True)` in the source drops `None` fields, which this
representation already identifies with `Option.none`.  Further pydantic
fields (e.g. `tool_calls`) are carried unchanged by the source and are
elided here. -/
structure Message where
  role : Role
  content : Option String
  customContent : Option CustomContent
  toolCallId : Option String

def defaultMessage : Message :=
  { role := Role.user, content := Option.none,
    customContent := Option.none, toolCallId := Option.none }

/-- The source's membership test for one transcript turn
(`_prepare_messages`, step 3): role is assistant, `custom_content` is
present, its `state` is truthy, and `state.get(self.name)` is truthy.
Membership is decided by truthiness, not by key presence. -/
def matchGuard (name : String) (msg : Message) : Bool :=
  msg.role == Role.assistant &&
    (match msg.customContent with
     | some cc =>
       (match cc.state with
        | some st => st.truthy && optTruthy (dictGet st name)
        | Option.none => false)
     | Option.none => false)

/-- The deep-copy-and-narrow of an assistant turn: the copy's
`customContent.state` becomes `state.get(name)` — only that callee's
sub-state, all other callees' state discarded
(`copied_msg.custom_content.state = msg_state.get(self.name)`). -/
def narrowTurn (name : String) (msg : Message) : Message :=
  { msg with
    customContent := msg.customContent.map (fun cc =>
      { cc with
        state := match cc.state with
                 | some st => dictGet st name
                 | Option.none => Option.none }) }

/-- Source expression `tool_call_params.messages[idx - 1]` for `idx` ranging over
`range(len(messages))`: for `idx = 0` Python's negative indexing makes
this `messages[-1]`, the *last* element (silent wraparound in the
source, no bounds error). -/
def pyPrev (ms : List Message) (idx : Nat) : Option Message :=
  if idx = 0 then ms.getLast? else ms[idx - 1]?

/-- One iteration of the history loop: when the turn at `idx` matches,
append the (possibly wrapped-around) preceding turn unmodified and the
narrowed copy. -/
def historyStep (name : String) (ms : List Message) (acc : List Message) (idx : Nat) :
    List Message :=
  match ms[idx]? with
  | some msg =>
    if matchGuard name msg then
      acc ++ [(pyPrev ms idx).getD defaultMessage, narrowTurn name msg]
    else acc
  | Option.none => acc

/-- The history accumulated by the `propagate_history` loop of
`_prepare_messages`, iterating `idx` over `range(len(messages))`. -/
def propagatedHistory (name : String) (ms : List Message) : List Message :=
  (List.range ms.length).foldl (historyStep name ms) []

/-- The fresh user turn appended last by `_prepare_messages`, carrying
the prompt and the current last transcript turn's `customContent`. -/
def freshTurn (lastMsg : Message) (prompt : String) : Message :=
  { role := Role.user, content := some prompt,
    customContent := lastMsg.customContent, toolCallId := Option.none }

/-- Embedding of `BaseAgentTool._prepare_messages`.  `name` is
`self.name` (the callee identity), `prompt` the required `prompt`
argument, `propagateHistory` the result of
`bool(arguments.get("propagate_history", False))` (so an absent
argument is `false`).  Returns `none` exactly when the source raises
`IndexError` on `messages[-1]` (empty transcript). -/
def prepareMessages (name : String) (ms : List Message) (prompt : String)
    (propagateHistory : Bool) : Option (List Message) :=
  match ms.getLast? with
  | Option.none => Option.none
  | some lastMsg =>
    let history := if propagateHistory then propagatedHistory name ms else []
    some (history ++ [freshTurn lastMsg prompt])

/-- Spec-side description of what the propagation loop emits for one
transcript position: a matched assistant turn contributes the turn
before it unmodified followed by its narrowed copy, anything else
contributes nothing. -/
def pairFor (name : String) (ms : List Message) (idx : Nat) : List Message :=
  match ms[idx]? with
  | some msg =>
    if matchGuard name msg then
      [(pyPrev ms idx).getD defaultMessage, narrowTurn name msg]
    else []
  | Option.none => []

/-! ## Stream Reconstructor (`BaseAgentTool._execute`, steps 3–6) -/

/-- One element of `custom_content.stages` after
`cc.dict(exclude_none=True)`: `index` is required (`stg["index"]`),
the other fields are present only when not `None` in the chunk. -/
structure StageDelta where
  index : Int
  name : Option String
  content : Option String
  attachments : Option (List PyVal)
  status : Option String

/-- A progress stage on the caller's response surface, as accumulated
name suffix, content, attachments and an open/closed flag.
Modelled from the spec: the `Stage` surface object (external SDK) is a
named, append-only unit of progress with lifecycle open → closed. -/
structure Stage where
  name : String
  content : String
  attachments : List PyVal
  closed : Bool

/-- Modelled from the spec: `StageProcessor.open_stage` (in
`task/utils/stage`, not under `src/`) opens a new stage on the caller's
surface with the given name (empty when the delta carried none — the
source passes `stg.get("name")`, possibly `None`). -/
def openStage (n : Option String) : Stage :=
  { name := n.getD "", content := "", attachments := [], closed := false }

/-- Modelled from the spec: `StageProcessor.close_stage_safely` (in
`task/utils/stage`, not under `src/`) — closing an already-closed stage
is a no-op, never an error (defensive close). -/
def closeStageSafely (st : Stage) : Stage :=
  if st.closed then st else { st with closed := true }

/-- Truthiness of an optional Python string (`None` and `""` falsy). -/
def optStrTruthy (o : Option String) : Bool :=
  match o with
  | some s => s != ""
  | Option.none => false

/-- Truthiness of an optional Python list (`None` and `[]` falsy). -/
def optListTruthy {α : Type} (o : Option (List α)) : Bool :=
  match o with
  | some l => !l.isEmpty
  | Option.none => false

/-- The single field of a stage-delta selected by the source's
`if/elif` chain, in the fixed priority order
name > content > attachments > completed; `nothing` when no branch
fires (all fields falsy, or an unrecognized `status`). -/
inductive Selected where
  | name (s : String)
  | content (s : String)
  | atts (l : List PyVal)
  | completed
  | nothing

/-- Priority dispatch of the source (`if stg_name := stg.get("name") …
elif … elif … elif stg.get("status") == 'completed'`): only the
highest-priority truthy field of a delta is selected. -/
def selectField (d : StageDelta) : Selected :=
  if optStrTruthy d.name then Selected.name (d.name.getD "")
  else if optStrTruthy d.content then Selected.content (d.content.getD "")
  else if optListTruthy d.attachments then Selected.atts (d.attachments.getD [])
  else if d.status == some "completed" then Selected.completed
  else Selected.nothing

/-- Apply the selected field to an already-open stage: `append_name`,
`append_content`, `add_attachment` per attachment (appends modelled
from the spec's append-only stage accumulation), or the safe close. -/
def applyField (st : Stage) : Selected → Stage
  | Selected.name s => { st with name := st.name ++ s }
  | Selected.content s => { st with content := st.content ++ s }
  | Selected.atts l => { st with attachments := st.attachments ++ l }
  | Selected.completed => closeStageSafely st
  | Selected.nothing => st

/-- The `stages_map: dict[int, Stage]` in insertion order. -/
abbrev StageMap := List (Int × Stage)

/-- Source lookup `stages_map.get(idx)`: first entry with the given index. -/
def lookupStage : StageMap → Int → Option Stage
  | [], _ => Option.none
  | (j, st) :: m, i => if j = i then some st else lookupStage m i

/-- Replace the stage stored at an index (the source mutates the stage
object held in the dict in place). -/
def updateStage : StageMap → Int → Stage → StageMap
  | [], _, _ => []
  | (j, st0) :: m, i, st =>
    if j = i then (j, st) :: updateStage m i st else (j, st0) :: updateStage m i st

/-- One stage-delta against the stage map: a seen index gets its
selected field applied; an unseen index opens a fresh stage from the
delta's name fragment only (`stages_map[idx] =
StageProcessor.open_stage(choice, stg.get("name"))`) — any content or
attachment fragment of that first delta is not applied. -/
def applyStageDelta (m : StageMap) (d : StageDelta) : StageMap :=
  match lookupStage m d.index with
  | some st => updateStage m d.index (applyField st (selectField d))
  | Option.none => m ++ [(d.index, openStage d.name)]

/-- The `delta.custom_content` of a chunk. -/
structure CCDelta where
  state : Option PyVal
  attachments : Option (List PyVal)
  stages : Option (List StageDelta)

/-- One choice; `chunk.choices[0].delta` may itself be `None`. -/
structure Delta where
  content : Option String
  customContent : Option CCDelta

/-- A streamed chunk; the source consumes only the first choice. -/
structure Chunk where
  choices : List (Option Delta)

/-- The accumulator of the chunk loop: flat content, the live mirror of
content into the caller's own stage, accumulated custom state
(initially unset), accumulated attachments (initially `[]`), and the
stage index map. -/
structure ExecState where
  content : String
  callerStageContent : String
  state : Option PyVal
  attachments : List PyVal
  stagesMap : StageMap

def initExecState : ExecState :=
  { content := "", callerStageContent := "", state := Option.none,
    attachments := [], stagesMap := [] }

/-- Source guard `if delta and delta.content:` — a truthy content delta is appended
to the running text and mirrored live to the caller's own stage. -/
def withContent (s : ExecState) (o : Option String) : ExecState :=
  if optStrTruthy o then
    { s with content := s.content ++ o.getD "",
             callerStageContent := s.callerStageContent ++ o.getD "" }
  else s

/-- Source guard `if cc.attachments:` — a truthy attachment batch is extended onto
the accumulator (`custom_content.attachments.extend`). -/
def withAtts (s : ExecState) (o : Option (List PyVal)) : ExecState :=
  if optListTruthy o then { s with attachments := s.attachments ++ o.getD [] } else s

/-- Source guard `if cc.state:` — a truthy state delta *replaces* the accumulated
state (`custom_content.state = cc.state`). -/
def withState (s : ExecState) (o : Option PyVal) : ExecState :=
  if optTruthy o then { s with state := o } else s

/-- One iteration of `async for chunk in chunks` in `_execute`:
guarded by `chunk.choices` non-empty and `delta` non-`None`; content,
attachments and state are applied in source order, then the
stage-deltas (guarded by `if stages := cc_dict.get("stages")`, so an
empty list is skipped — a no-op fold either way) are folded into the
stage map. -/
def processChunk (s : ExecState) (c : Chunk) : ExecState :=
  match c.choices.head? with
  | Option.none => s
  | some Option.none => s
  | some (some d) =>
    let s1 := withContent s d.content
    match d.customContent with
    | Option.none => s1
    | some cc =>
      let s3 := withState (withAtts s1 cc.attachments) cc.state
      match cc.stages with
      | some stgs =>
        if !stgs.isEmpty then { s3 with stagesMap := stgs.foldl applyStageDelta s3.stagesMap }
        else s3
      | Option.none => s3

/-- The stage-deltas a chunk delivers to the stage map (empty for
chunks without choices, a `None` delta, or no stages). -/
def chunkStageDeltas (c : Chunk) : List StageDelta :=
  match c.choices.head? with
  | some (some d) =>
    match d.customContent with
    | some cc => cc.stages.getD []
    | Option.none => []
  | _ => []

/-- Embedding of the chunk loop, the defensive close pass and the
result construction of `BaseAgentTool._execute` (steps 4–6): returns
the tool-result `Message` together with the final stage map (every
stage closed safely at end of stream). -/
def runExecute (chunks : List Chunk) (toolCallId : String) : Message × StageMap :=
  let s := chunks.foldl processChunk initExecState
  let closedMap := s.stagesMap.map (fun p => (p.1, closeStageSafely p.2))
  ({ role := Role.tool, content := some s.content,
     customContent := some { state := s.state, attachments := some s.attachments },
     toolCallId := some toolCallId },
   closedMap)

/-! ### Spec-side accumulation functions (arrival-order concatenation) -/

/-- The content delta a chunk contributes to the running text
(empty for chunks without choices, a `None` delta, or falsy content). -/
def extractContent (c : Chunk) : String :=
  match c.choices.head? with
  | some (some d) => if optStrTruthy d.content then d.content.getD "" else ""
  | _ => ""

/-- The truthy state object a chunk carries, if any. -/
def extractState (c : Chunk) : Option PyVal :=
  match c.choices.head? with
  | some (some d) =>
    match d.customContent with
    | some cc => if optTruthy cc.state then cc.state else Option.none
    | Option.none => Option.none
  | _ => Option.none

/-- The attachment batch a chunk contributes (empty when falsy). -/
def extractAtts (c : Chunk) : List PyVal :=
  match c.choices.head? with
  | some (some d) =>
    match d.customContent with
    | some cc => if optListTruthy cc.attachments then cc.attachments.getD [] else []
    | Option.none => []
  | _ => []

/-- Concatenation, in arrival order, of all content deltas. -/
def contentsOf : List Chunk → String
  | [] => ""
  | c :: rest => extractContent c ++ contentsOf rest

/-- Concatenation, in arrival order, of all attachment batches. -/
def attsOf : List Chunk → List PyVal
  | [] => []
  | c :: rest => extractAtts c ++ attsOf rest

/-- The last truthy state delta of the sequence (last-write-wins). -/
def lastStateOf : List Chunk → Option PyVal
  | [] => Option.none
  | c :: rest =>
    match lastStateOf rest with
    | some w => some w
    | Option.none => extractState c

/-- The name fragment a stage-delta contributes when its selected field
is a name fragment, empty otherwise. -/
def nameFrag (d : StageDelta) : String :=
  match selectField d with
  | Selected.name s => s
  | _ => ""

/-- The content fragment a stage-delta contributes when selected. -/
def contentFrag (d : StageDelta) : String :=
  match selectField d with
  | Selected.content s => s
  | _ => ""

/-- The attachment batch a stage-delta contributes when selected. -/
def attsFrag (d : StageDelta) : List PyVal :=
  match selectField d with
  | Selected.atts l => l
  | _ => []

/-- Concatenation, in arrival order, of selected name fragments. -/
def namesConcat : List StageDelta → String
  | [] => ""
  | d :: ds => nameFrag d ++ namesConcat ds

/-- Concatenation, in arrival order, of selected content fragments. -/
def contentsConcat : List StageDelta → String
  | [] => ""
  | d :: ds => contentFrag d ++ contentsConcat ds

/-- Concatenation, in arrival order, of selected attachment batches. -/
def attsConcat : List StageDelta → List PyVal
  | [] => []
  | d :: ds => attsFrag d ++ attsConcat ds

/-- Replay a per-index subsequence of stage-deltas: the first delta for
the index opens the stage (from its name fragment only), each later
delta applies its selected field. -/
def runDeltas (o : Option Stage) : List StageDelta → Option Stage
  | [] => o
  | d :: ds =>
    match o with
    | Option.none => runDeltas (some (openStage d.name)) ds
    | some st => runDeltas (some (applyField st (selectField d))) ds

/-- Fold a per-index subsequence onto an already-open stage. -/
def runAcc (st : Stage) (ds : List StageDelta) : Stage :=
  ds.foldl (fun s d => applyField s (selectField d)) st

/-! ## Concrete inputs used by counterexamples and witnesses -/

def subA : PyVal := PyVal.dict [("x", PyVal.int 1)]

def subB : PyVal := PyVal.dict [("y", PyVal.int 2)]

/-- Assistant turn holding only callee "B"'s state. -/
def cexM0 : Message :=
  { role := Role.assistant, content := some "b-turn",
    customContent := some { state := some (PyVal.dict [("B", subB)]), attachments := Option.none },
    toolCallId := Option.none }

/-- Assistant turn holding a truthy entry for callee "A". -/
def cexM1 : Message :=
  { role := Role.assistant, content := some "a-turn",
    customContent := some { state := some (PyVal.dict [("A", subA)]), attachments := Option.none },
    toolCallId := Option.none }

def cexM2 : Message :=
  { role := Role.user, content := some "u",
    customContent := Option.none, toolCallId := Option.none }

/-- Assistant turn whose state maps "A" to a *falsy* value (empty
mapping): the entry is keyed by "A" but the source skips it. -/
def cexM3 : Message :=
  { role := Role.assistant, content := some "late",
    customContent := some { state := some (PyVal.dict [("A", PyVal.dict [])]), attachments := Option.none },
    toolCallId := Option.none }

def cexT : List Message := [cexM0, cexM1, cexM2, cexM3]

/-- Single-turn transcript whose only turn is a matched assistant turn
at index 0 (the index-0 wraparound input). -/
def c3Msg : Message :=
  { role := Role.assistant, content := some "only",
    customContent := some { state := some (PyVal.dict [("A", subA)]), attachments := Option.none },
    toolCallId := Option.none }

/-- A stage-delta whose *first-ever* appearance for index 0 carries a
content fragment (and nothing else). -/
def c4d1 : StageDelta :=
  { index := 0, name := Option.none, content := some "abc",
    attachments := Option.none, status := Option.none }

/-- A completion signal for index 0. -/
def c4d2 : StageDelta :=
  { index := 0, name := Option.none, content := Option.none,
    attachments := Option.none, status := some "completed" }

/-- Witness deltas for the amended stage-dispatch claim. -/
def c4w1 : StageDelta :=
  { index := 0, name := some "Step", content := Option.none,
    attachments := Option.none, status := Option.none }

def c4w2 : StageDelta :=
  { index := 1, name := some "Other", content := Option.none,
    attachments := Option.none, status := Option.none }

def c4w3 : StageDelta :=
  { index := 0, name := Option.none, content := some "abc",
    attachments := Option.none, status := Option.none }

def c4wds : List StageDelta := [c4w1, c4w2, c4w3]

/-- A custom-content delta carrying one stage-delta that opens stage 0. -/
def c5CC : CCDelta :=
  { state := Option.none, attachments := Option.none, stages := some [c4w1] }

def c5Delta : Delta := { content := Option.none, customContent := some c5CC }

/-- A chunk carrying one stage-delta that opens stage 0. -/
def c5Chunk : Chunk := { choices := [some c5Delta] }

/-- Stage map with one already-closed stage at index 0. -/
def c6St : Stage := { name := "n", content := "c", attachments := [], closed := true }

def c6Map : StageMap := [(0, c6St)]

/-- A custom-content delta carrying a truthy state object. -/
def stateCC (v : PyVal) : CCDelta :=
  { state := some v, attachments := Option.none, stages := Option.none }

def stateDelta (v : PyVal) : Delta :=
  { content := Option.none, customContent := some (stateCC v) }

/-- Chunk carrying a truthy state delta. -/
def stateChunk (v : PyVal) : Chunk := { choices := [some (stateDelta v)] }

def c7Chunks : List Chunk := [stateChunk subA, stateChunk subB]

/-! ## History Propagator lemmas -/

theorem historyStep_eq (name : String) (ms : List Message) (acc : List Message) (idx : Nat) :
    historyStep name ms acc idx = acc ++ pairFor name ms idx := by
  unfold historyStep pairFor
  cases h : ms[idx]? with
  | none => simp
  | some msg => cases hg : matchGuard name msg <;> simp [hg]

theorem foldl_historyStep (name : String) (ms : List Message) :
    ∀ (l : List Nat) (acc : List Message),
      l.foldl (historyStep name ms) acc = acc ++ l.flatMap (pairFor name ms) := by
  intro l
  induction l with
  | nil => intro acc; simp
  | cons x xs ih =>
    intro acc
    simp [List.foldl_cons, historyStep_eq, ih, List.append_assoc]

theorem propagatedHistory_eq (name : String) (ms : List Message) :
    propagatedHistory name ms = (List.range ms.length).flatMap (pairFor name ms) := by
  unfold propagatedHistory
  simpa using foldl_historyStep name ms (List.range ms.length) []

theorem prepareMessages_true_eq (name : String) (ms : List Message) (prompt : String)
    (lastMsg : Message) (hne : ms.getLast? = some lastMsg) :
    prepareMessages name ms prompt true =
      some ((List.range ms.length).flatMap (pairFor name ms) ++ [freshTurn lastMsg prompt]) := by
  unfold prepareMessages
  rw [hne]
  simp [propagatedHistory_eq]

/-- C2: one-shot mode — with `propagate_history` false (or absent,
which the source coerces to false), the outbound list built by
`_prepare_messages` is exactly one user turn carrying the prompt and
the last transcript turn's `customContent`. -/
theorem one_shot_mode (name : String) (ms : List Message) (prompt : String)
    (lastMsg : Message) (hne : ms.getLast? = some lastMsg) :
    prepareMessages name ms prompt false =
      some [{ role := Role.user, content := some prompt,
              customContent := lastMsg.customContent, toolCallId := Option.none }] := by
  unfold prepareMessages
  rw [hne]
  simp [freshTurn]

theorem one_shot_mode_witness :
    prepareMessages "A" cexT "p" false =
      some [{ role := Role.user, content := some "p",
              customContent := cexM3.customContent, toolCallId := Option.none }] :=
  one_shot_mode "A" cexT "p" cexM3 rfl

/-- C3: evaluation at the failing input — a transcript whose only turn
(index 0) is a matched assistant turn.  The source evaluates
`messages[idx - 1]` at `idx = 0`, i.e. Python's `messages[-1]`, which
silently wraps around to the *last* transcript turn (here the matched
turn itself) instead of failing fast with a structural error: the call
returns normally. -/
theorem index_zero_wraparound_eval :
    prepareMessages "A" [c3Msg] "p" true =
      some [c3Msg, narrowTurn "A" c3Msg, freshTurn c3Msg "p"] := rfl

/-- C9: the last turn of the propagated outbound list is always the
fresh user turn carrying the prompt and the *current* last transcript
turn's `customContent` (hence its attachments), never a historical
turn's. -/
theorem final_turn_current_custom_content (name : String) (ms : List Message)
    (prompt : String) (lastMsg : Message) (hne : ms.getLast? = some lastMsg) :
    ∃ out, prepareMessages name ms prompt true = some out ∧
      out.getLast? = some { role := Role.user, content := some prompt,
                            customContent := lastMsg.customContent,
                            toolCallId := Option.none } := by
  refine ⟨_, prepareMessages_true_eq name ms prompt lastMsg hne, ?_⟩
  rw [List.getLast?_concat]
  rfl

theorem final_turn_current_custom_content_witness :
    ∃ out, prepareMessages "A" cexT "p" true = some out ∧
      out.getLast? = some { role := Role.user, content := some "p",
                            customContent := cexM3.customContent,
                            toolCallId := Option.none } :=
  final_turn_current_custom_content "A" cexT "p" cexM3 rfl

/-- C1 counterexample: on `cexT` (callee "A") the outbound list emits
the preceding turn `cexM0` *unmodified* even though it is an assistant
turn carrying callee "B"'s state, and the assistant turn `cexM3`, whose
state has an entry *keyed* by "A" but with a falsy value, contributes
no pair at all (no output turn has its content "late"). -/
theorem history_isolation_counterexample :
    prepareMessages "A" cexT "p" true =
      some [cexM0, narrowTurn "A" cexM1, freshTurn cexM3 "p"] ∧
    cexM0.role = Role.assistant ∧
    optTruthy ((cexM0.customContent.bind (fun cc => cc.state)).bind
      (fun st => dictGet st "B")) = true ∧
    ((cexM3.customContent.bind (fun cc => cc.state)).bind
      (fun st => dictGet st "A")) = some (PyVal.dict []) ∧
    (∀ m ∈ [cexM0, narrowTurn "A" cexM1, freshTurn cexM3 "p"],
      m.content ≠ some "late") := by
  refine ⟨rfl, rfl, rfl, rfl, ?_⟩
  intro m hm
  simp only [List.mem_cons, List.not_mem_nil, or_false] at hm
  rcases hm with h | h | h <;> subst h <;> decide

/-- C1 (amended): history isolation — under `propagate_history=true`
the outbound list is, in transcript order, for each assistant turn
whose `customContent.state` maps the callee identity to a *truthy*
value, the (possibly wrapped-around) preceding turn unmodified followed
by the narrowed copy, then the fresh user turn; every narrowed copy's
state is exactly the callee's own sub-state (all other callees' state
discarded), though an unmodified preceding turn may itself carry other
callees' state. -/
theorem history_isolation (name : String) (ms : List Message) (prompt : String)
    (lastMsg : Message) (hne : ms.getLast? = some lastMsg) :
    prepareMessages name ms prompt true =
      some ((List.range ms.length).flatMap (pairFor name ms) ++ [freshTurn lastMsg prompt]) ∧
    (∀ idx msg, ms[idx]? = some msg → matchGuard name msg = true →
       pairFor name ms idx = [(pyPrev ms idx).getD defaultMessage, narrowTurn name msg]) ∧
    (∀ msg cc, (narrowTurn name msg).customContent = some cc →
       cc.state = (msg.customContent.bind (fun c => c.state)).bind
         (fun st => dictGet st name)) := by
  refine ⟨prepareMessages_true_eq name ms prompt lastMsg hne, ?_, ?_⟩
  · intro idx msg hget hguard
    simp [pairFor, hget, hguard]
  · intro msg cc hcc
    cases hmc : msg.customContent with
    | none => simp [narrowTurn, hmc] at hcc
    | some c =>
      simp only [narrowTurn, hmc, Option.map_some'] at hcc
      have h := Option.some.inj hcc
      subst h
      cases hs : c.state <;> simp [hs]

theorem history_isolation_witness :
    prepareMessages "A" cexT "p" true =
      some ((List.range cexT.length).flatMap (pairFor "A" cexT) ++ [freshTurn cexM3 "p"]) :=
  (history_isolation "A" cexT "p" cexM3 rfl).1

/-- C10: falsy sub-state entries are skipped — membership is decided by
the truthiness of `state.get(callee)`, not key presence: an assistant
turn whose state maps the callee to a falsy value fails the guard and
contributes neither itself nor its preceding turn to the outbound
list. -/
theorem falsy_substate_skipped (name : String) (ms : List Message) (prompt : String)
    (lastMsg : Message) (idx : Nat) (msg : Message) (cc : CustomContent) (st v : PyVal)
    (hne : ms.getLast? = some lastMsg)
    (hget : ms[idx]? = some msg)
    (hrole : msg.role = Role.assistant)
    (hcc : msg.customContent = some cc)
    (hst : cc.state = some st)
    (hv : dictGet st name = some v)
    (hfalsy : v.truthy = false) :
    matchGuard name msg = false ∧
    pairFor name ms idx = [] ∧
    prepareMessages name ms prompt true =
      some ((List.range ms.length).flatMap (pairFor name ms) ++ [freshTurn lastMsg prompt]) := by
  have hguard : matchGuard name msg = false := by
    simp [matchGuard, hcc, hst, hv, optTruthy, hfalsy]
  refine ⟨hguard, ?_, prepareMessages_true_eq name ms prompt lastMsg hne⟩
  simp [pairFor, hget, hguard]

theorem falsy_substate_skipped_witness :
    matchGuard "A" cexM3 = false ∧
    pairFor "A" cexT 3 = [] ∧
    prepareMessages "A" cexT "p" true =
      some ((List.range cexT.length).flatMap (pairFor "A" cexT) ++ [freshTurn cexM3 "p"]) :=
  falsy_substate_skipped "A" cexT "p" cexM3 3 cexM3
    { state := some (PyVal.dict [("A", PyVal.dict [])]), attachments := Option.none }
    (PyVal.dict [("A", PyVal.dict [])]) (PyVal.dict [])
    rfl rfl rfl rfl rfl rfl rfl

/-! ## Stage-map lemmas -/

theorem closeStageSafely_name (st : Stage) : (closeStageSafely st).name = st.name := by
  unfold closeStageSafely; split <;> rfl

theorem closeStageSafely_content (st : Stage) :
    (closeStageSafely st).content = st.content := by
  unfold closeStageSafely; split <;> rfl

theorem closeStageSafely_attachments (st : Stage) :
    (closeStageSafely st).attachments = st.attachments := by
  unfold closeStageSafely; split <;> rfl

theorem closeStageSafely_closed (st : Stage) : (closeStageSafely st).closed = true := by
  unfold closeStageSafely
  by_cases h : st.closed = true <;> simp [h]

theorem lookupStage_update_self (m : StageMap) (i : Int) (st0 st : Stage)
    (h : lookupStage m i = some st0) :
    lookupStage (updateStage m i st) i = some st := by
  induction m with
  | nil => simp [lookupStage] at h
  | cons p m ih =>
    obtain ⟨j, q⟩ := p
    by_cases hj : j = i
    · subst hj; simp [lookupStage, updateStage]
    · simp only [lookupStage, updateStage, if_neg hj] at h ⊢
      exact ih h

theorem lookupStage_update_ne (m : StageMap) (i k : Int) (st : Stage) (hne : i ≠ k) :
    lookupStage (updateStage m i st) k = lookupStage m k := by
  induction m with
  | nil => simp [lookupStage, updateStage]
  | cons p m ih =>
    obtain ⟨j, q⟩ := p
    by_cases hj : j = i
    · subst hj
      simp [updateStage, lookupStage, hne, ih]
    · simp [updateStage, lookupStage, hj, ih]

theorem lookupStage_append (m l : StageMap) (k : Int) :
    lookupStage (m ++ l) k =
      match lookupStage m k with
      | some st => some st
      | Option.none => lookupStage l k := by
  induction m with
  | nil => simp [lookupStage]
  | cons p m ih =>
    obtain ⟨j, q⟩ := p
    by_cases hj : j = k <;> simp [lookupStage, hj, ih]

theorem lookupStage_applyStageDelta_ne (m : StageMap) (d : StageDelta) (k : Int)
    (hne : d.index ≠ k) :
    lookupStage (applyStageDelta m d) k = lookupStage m k := by
  unfold applyStageDelta
  cases h : lookupStage m d.index with
  | some st => exact lookupStage_update_ne m d.index k _ hne
  | none =>
    rw [lookupStage_append]
    cases hk : lookupStage m k <;> simp [lookupStage, hne]

theorem lookupStage_foldl (ds : List StageDelta) :
    ∀ (m : StageMap) (i : Int),
      lookupStage (ds.foldl applyStageDelta m) i =
        runDeltas (lookupStage m i) (ds.filter (fun d => d.index == i)) := by
  induction ds with
  | nil => intro m i; rfl
  | cons d ds ih =>
    intro m i
    simp only [List.foldl_cons, List.filter_cons]
    by_cases hd : d.index = i
    · simp only [hd, beq_self_eq_true, if_pos]
      rw [ih]
      have happ : lookupStage (applyStageDelta m d) i =
          match lookupStage m i with
          | some st => some (applyField st (selectField d))
          | Option.none => some (openStage d.name) := by
        unfold applyStageDelta
        rw [hd]
        cases h : lookupStage m i with
        | some st => exact lookupStage_update_self m i st _ h
        | none =>
          rw [lookupStage_append]
          simp [h, lookupStage]
      rw [happ]
      cases h : lookupStage m i <;> simp [runDeltas]
    · have hbeq : (d.index == i) = false := by simp [hd]
      simp only [hbeq, Bool.false_eq_true, if_neg, ite_false]
      rw [ih, lookupStage_applyStageDelta_ne m d i hd]

theorem runDeltas_some (ds : List StageDelta) :
    ∀ st : Stage, runDeltas (some st) ds = some (runAcc st ds) := by
  induction ds with
  | nil => intro st; rfl
  | cons d ds ih =>
    intro st
    show runDeltas (some (applyField st (selectField d))) ds = _
    rw [ih]
    rfl

theorem runAcc_fields (ds : List StageDelta) :
    ∀ st : Stage,
      (runAcc st ds).name = st.name ++ namesConcat ds ∧
      (runAcc st ds).content = st.content ++ contentsConcat ds ∧
      (runAcc st ds).attachments = st.attachments ++ attsConcat ds := by
  induction ds with
  | nil =>
    intro st
    simp [runAcc, namesConcat, contentsConcat, attsConcat]
  | cons d ds ih =>
    intro st
    obtain ⟨h1, h2, h3⟩ := ih (applyField st (selectField d))
    have hrun : runAcc st (d :: ds) = runAcc (applyField st (selectField d)) ds := rfl
    rw [hrun]
    refine ⟨?_, ?_, ?_⟩
    · rw [h1]
      cases hsel : selectField d <;>
        simp [applyField, nameFrag, namesConcat, hsel, closeStageSafely_name,
          String.append_assoc]
    · rw [h2]
      cases hsel : selectField d <;>
        simp [applyField, contentFrag, contentsConcat, hsel, closeStageSafely_content,
          String.append_assoc]
    · rw [h3]
      cases hsel : selectField d <;>
        simp [applyField, attsFrag, attsConcat, hsel, closeStageSafely_attachments,
          List.append_assoc]

/-- C4 counterexample: the first-ever delta for index 0 carries a
content fragment "abc" (its selected, highest-priority field), yet the
resulting stage's content is `""` — the source only opens the stage
(with an empty name) and discards the fragment, so the claimed
arrival-order concatenation (which would be "abc") does not hold. -/
theorem stage_priority_dispatch_counterexample :
    selectField c4d1 = Selected.content "abc" ∧
    lookupStage ([c4d1, c4d2].foldl applyStageDelta []) 0 =
      some { name := "", content := "", attachments := [], closed := true } ∧
    ("" : String) ≠ "abc" := by
  refine ⟨rfl, rfl, ?_⟩
  decide

/-- C4 (amended): priority dispatch per stage index — for the deltas
delivered for one index, the first delta only opens the stage with its
name fragment (empty when absent; any content or attachment fragment it
carries is discarded), and every later delta contributes exactly its
highest-priority present field (name > content > attachments >
completed): the resulting stage's name, content and attachments are the
opening name followed by the arrival-order concatenation of the
selected fields of the subsequent deltas. -/
theorem stage_priority_dispatch (ds rest : List StageDelta) (i : Int) (d : StageDelta)
    (h : ds.filter (fun x => x.index == i) = d :: rest) :
    ∃ st, lookupStage (ds.foldl applyStageDelta []) i = some st ∧
      st.name = d.name.getD "" ++ namesConcat rest ∧
      st.content = contentsConcat rest ∧
      st.attachments = attsConcat rest := by
  have hf := lookupStage_foldl ds [] i
  rw [h] at hf
  have h0 : lookupStage ([] : StageMap) i = Option.none := rfl
  rw [h0] at hf
  have h1 : runDeltas Option.none (d :: rest) =
      runDeltas (some (openStage d.name)) rest := rfl
  rw [h1, runDeltas_some] at hf
  obtain ⟨hn, hc, ha⟩ := runAcc_fields rest (openStage d.name)
  refine ⟨_, hf, ?_, ?_, ?_⟩
  · rw [hn]; rfl
  · rw [hc]
    show "" ++ contentsConcat rest = contentsConcat rest
    simp
  · rw [ha]
    rfl

theorem stage_priority_dispatch_witness :
    ∃ st, lookupStage (c4wds.foldl applyStageDelta []) 0 = some st ∧
      st.name = c4w1.name.getD "" ++ namesConcat [c4w3] ∧
      st.content = contentsConcat [c4w3] ∧
      st.attachments = attsConcat [c4w3] :=
  stage_priority_dispatch c4wds [c4w3] 0 c4w1 rfl

/-! ## Chunk-loop projection lemmas -/

theorem withContent_state (s : ExecState) (o : Option String) :
    (withContent s o).state = s.state := by
  unfold withContent; split <;> rfl

theorem withContent_attachments (s : ExecState) (o : Option String) :
    (withContent s o).attachments = s.attachments := by
  unfold withContent; split <;> rfl

theorem withContent_stagesMap (s : ExecState) (o : Option String) :
    (withContent s o).stagesMap = s.stagesMap := by
  unfold withContent; split <;> rfl

theorem withContent_content (s : ExecState) (o : Option String) :
    (withContent s o).content = s.content ++ (if optStrTruthy o then o.getD "" else "") := by
  unfold withContent; split <;> simp

theorem withAtts_content (s : ExecState) (o : Option (List PyVal)) :
    (withAtts s o).content = s.content := by
  unfold withAtts; split <;> rfl

theorem withAtts_state (s : ExecState) (o : Option (List PyVal)) :
    (withAtts s o).state = s.state := by
  unfold withAtts; split <;> rfl

theorem withAtts_stagesMap (s : ExecState) (o : Option (List PyVal)) :
    (withAtts s o).stagesMap = s.stagesMap := by
  unfold withAtts; split <;> rfl

theorem withAtts_attachments (s : ExecState) (o : Option (List PyVal)) :
    (withAtts s o).attachments =
      s.attachments ++ (if optListTruthy o then o.getD [] else []) := by
  unfold withAtts; split <;> simp

theorem withState_content (s : ExecState) (o : Option PyVal) :
    (withState s o).content = s.content := by
  unfold withState; split <;> rfl

theorem withState_attachments (s : ExecState) (o : Option PyVal) :
    (withState s o).attachments = s.attachments := by
  unfold withState; split <;> rfl

theorem withState_stagesMap (s : ExecState) (o : Option PyVal) :
    (withState s o).stagesMap = s.stagesMap := by
  unfold withState; split <;> rfl

theorem withState_state (s : ExecState) (o : Option PyVal) :
    (withState s o).state = if optTruthy o then o else s.state := by
  unfold withState; split <;> simp_all

theorem processChunk_content (s : ExecState) (c : Chunk) :
    (processChunk s c).content = s.content ++ extractContent c := by
  unfold processChunk extractContent
  cases hc : c.choices.head? with
  | none => simp
  | some od =>
    cases od with
    | none => simp
    | some d =>
      cases hcc : d.customContent with
      | none => simp [hcc, withContent_content]
      | some cc =>
        cases hstg : cc.stages with
        | none =>
          simp [hcc, hstg, withState_content, withAtts_content, withContent_content]
        | some stgs =>
          simp only [hcc, hstg]
          split <;>
            simp [withState_content, withAtts_content, withContent_content]

theorem processChunk_attachments (s : ExecState) (c : Chunk) :
    (processChunk s c).attachments = s.attachments ++ extractAtts c := by
  unfold processChunk extractAtts
  cases hc : c.choices.head? with
  | none => simp
  | some od =>
    cases od with
    | none => simp
    | some d =>
      cases hcc : d.customContent with
      | none => simp [hcc, withContent_attachments]
      | some cc =>
        cases hstg : cc.stages with
        | none =>
          simp [hcc, hstg, withState_attachments, withAtts_attachments,
            withContent_attachments]
        | some stgs =>
          simp only [hcc, hstg]
          split <;>
            simp [withState_attachments, withAtts_attachments, withContent_attachments]

theorem processChunk_state (s : ExecState) (c : Chunk) :
    (processChunk s c).state =
      match extractState c with
      | some v => some v
      | Option.none => s.state := by
  unfold processChunk extractState
  cases hc : c.choices.head? with
  | none => simp
  | some od =>
    cases od with
    | none => simp
    | some d =>
      cases hcc : d.customContent with
      | none => simp [hcc, withContent_state]
      | some cc =>
        have hmain : (withState (withAtts (withContent s d.content) cc.attachments)
            cc.state).state =
            match (if optTruthy cc.state then cc.state else Option.none) with
            | some v => some v
            | Option.none => s.state := by
          rw [withState_state, withAtts_state, withContent_state]
          cases htr : optTruthy cc.state with
          | true =>
            cases hcs : cc.state with
            | none => rw [hcs] at htr; simp [optTruthy] at htr
            | some v => simp [htr]
          | false => simp [htr]
        cases hstg : cc.stages with
        | none => simp only [hcc, hstg]; exact hmain
        | some stgs =>
          simp only [hcc, hstg]
          split <;> exact hmain

theorem processChunk_stagesMap (s : ExecState) (c : Chunk) :
    (processChunk s c).stagesMap =
      (chunkStageDeltas c).foldl applyStageDelta s.stagesMap := by
  unfold processChunk chunkStageDeltas
  cases hc : c.choices.head? with
  | none => simp
  | some od =>
    cases od with
    | none => simp
    | some d =>
      cases hcc : d.customContent with
      | none => simp [hcc, withContent_stagesMap]
      | some cc =>
        cases hstg : cc.stages with
        | none =>
          simp [hcc, hstg, withState_stagesMap, withAtts_stagesMap, withContent_stagesMap]
        | some stgs =>
          simp only [hcc, hstg, Option.getD_some]
          split
          · simp [withState_stagesMap, withAtts_stagesMap, withContent_stagesMap]
          · rename_i hemp
            have hnil : stgs = [] := by
              simp only [Bool.not_eq_true', Bool.not_eq_false] at hemp
              exact List.isEmpty_iff.mp hemp
            subst hnil
            simp [withState_stagesMap, withAtts_stagesMap, withContent_stagesMap]

/-! ## Chunk-loop fold lemmas -/

theorem content_foldl (chunks : List Chunk) :
    ∀ s : ExecState, (chunks.foldl processChunk s).content = s.content ++ contentsOf chunks := by
  induction chunks with
  | nil => intro s; simp [contentsOf]
  | cons c rest ih =>
    intro s
    simp only [List.foldl_cons, contentsOf]
    rw [ih, processChunk_content, String.append_assoc]

theorem atts_foldl (chunks : List Chunk) :
    ∀ s : ExecState,
      (chunks.foldl processChunk s).attachments = s.attachments ++ attsOf chunks := by
  induction chunks with
  | nil => intro s; simp [attsOf]
  | cons c rest ih =>
    intro s
    simp only [List.foldl_cons, attsOf]
    rw [ih, processChunk_attachments, List.append_assoc]

theorem state_foldl (chunks : List Chunk) :
    ∀ s : ExecState,
      (chunks.foldl processChunk s).state =
        match lastStateOf chunks with
        | some w => some w
        | Option.none => s.state := by
  induction chunks with
  | nil => intro s; rfl
  | cons c rest ih =>
    intro s
    simp only [List.foldl_cons, lastStateOf]
    rw [ih, processChunk_state]
    cases hr : lastStateOf rest <;> cases he : extractState c <;> simp

theorem lastStateOf_eq_getLast (chunks : List Chunk) :
    lastStateOf chunks = (chunks.filterMap extractState).getLast? := by
  induction chunks with
  | nil => rfl
  | cons c rest ih =>
    simp only [lastStateOf, List.filterMap_cons]
    cases he : extractState c with
    | none =>
      rw [ih]
      cases hg : (rest.filterMap extractState).getLast? <;> simp
    | some v =>
      rw [ih]
      cases hfm : rest.filterMap extractState with
      | nil => simp
      | cons x t =>
        rw [List.getLast?_cons_cons]
        cases hg : (x :: t).getLast? with
        | none => simp [List.getLast?_eq_none_iff] at hg
        | some w => simp

/-! ## Openness monotonicity and the final close pass -/

theorem lookupStage_applyStageDelta_isSome (m : StageMap) (d : StageDelta) (i : Int)
    (h : (lookupStage m i).isSome = true) :
    (lookupStage (applyStageDelta m d) i).isSome = true := by
  by_cases hd : d.index = i
  · unfold applyStageDelta
    cases hm : lookupStage m d.index with
    | some st =>
      simp only [hm]
      rw [hd] at hm ⊢
      rw [lookupStage_update_self m i st _ hm]
      rfl
    | none =>
      rw [hd] at hm
      rw [hm] at h
      simp at h
  · rw [lookupStage_applyStageDelta_ne m d i hd]
    exact h

theorem lookupStage_deltas_foldl_isSome (stgs : List StageDelta) :
    ∀ (m : StageMap) (i : Int), (lookupStage m i).isSome = true →
      (lookupStage (stgs.foldl applyStageDelta m) i).isSome = true := by
  induction stgs with
  | nil => intro m i h; exact h
  | cons d ds ih =>
    intro m i h
    exact ih _ i (lookupStage_applyStageDelta_isSome m d i h)

theorem lookupStage_processChunk_isSome (s : ExecState) (c : Chunk) (i : Int)
    (h : (lookupStage s.stagesMap i).isSome = true) :
    (lookupStage ((processChunk s c).stagesMap) i).isSome = true := by
  rw [processChunk_stagesMap]
  exact lookupStage_deltas_foldl_isSome (chunkStageDeltas c) s.stagesMap i h

theorem lookupStage_chunks_foldl_isSome (chunks : List Chunk) :
    ∀ (s : ExecState) (i : Int), (lookupStage s.stagesMap i).isSome = true →
      (lookupStage ((chunks.foldl processChunk s).stagesMap) i).isSome = true := by
  induction chunks with
  | nil => intro s i h; exact h
  | cons c rest ih =>
    intro s i h
    exact ih _ i (lookupStage_processChunk_isSome s c i h)

theorem lookupStage_map_close (m : StageMap) (i : Int) :
    lookupStage (m.map (fun p => (p.1, closeStageSafely p.2))) i =
      (lookupStage m i).map closeStageSafely := by
  induction m with
  | nil => rfl
  | cons p m ih =>
    obtain ⟨j, q⟩ := p
    by_cases hj : j = i <;> simp [lookupStage, hj, ih]

/-- C5: all stages closed on normal completion — any stage index open
in the stage map after consuming any first part of the chunk sequence
(stages are opened and never removed, so this is every index ever
opened) is present and closed in the map `_execute` holds when its
reconstruction loop returns. -/
theorem all_stages_closed (pre suf : List Chunk) (tid : String) (i : Int)
    (hopen : (lookupStage ((pre.foldl processChunk initExecState).stagesMap) i).isSome
      = true) :
    ∃ st, lookupStage (runExecute (pre ++ suf) tid).2 i = some st ∧ st.closed = true := by
  have hmono : (lookupStage (((pre ++ suf).foldl processChunk initExecState).stagesMap)
      i).isSome = true := by
    rw [List.foldl_append]
    exact lookupStage_chunks_foldl_isSome suf _ i hopen
  obtain ⟨st, hst⟩ := Option.isSome_iff_exists.mp hmono
  refine ⟨closeStageSafely st, ?_, closeStageSafely_closed st⟩
  show lookupStage ((((pre ++ suf).foldl processChunk initExecState).stagesMap).map
    (fun p => (p.1, closeStageSafely p.2))) i = some (closeStageSafely st)
  rw [lookupStage_map_close, hst]
  rfl

theorem all_stages_closed_witness :
    ∃ st, lookupStage (runExecute ([c5Chunk] ++ []) "t").2 0 = some st ∧ st.closed = true :=
  all_stages_closed [c5Chunk] [] "t" 0 rfl

/-- C6: idempotent close — a further `completed` stage-delta for an
index whose stage is already closed leaves the stage map extensionally
unchanged (never an error, name/content/attachments untouched), and the
defensive close pass applied to an already-closed stage is the
identity. -/
theorem idempotent_close (m : StageMap) (i : Int) (st : Stage) (d : StageDelta)
    (hlk : lookupStage m i = some st) (hcl : st.closed = true)
    (hidx : d.index = i) (hsel : selectField d = Selected.completed) :
    (∀ j, lookupStage (applyStageDelta m d) j = lookupStage m j) ∧
    closeStageSafely st = st := by
  have hclose : closeStageSafely st = st := by
    unfold closeStageSafely
    rw [hcl]
    rfl
  refine ⟨?_, hclose⟩
  intro j
  unfold applyStageDelta
  rw [hidx]
  simp only [hlk, hsel]
  have happ : applyField st Selected.completed = st := hclose
  rw [happ]
  by_cases hj : i = j
  · subst hj
    rw [lookupStage_update_self m i st st hlk, hlk]
  · exact lookupStage_update_ne m i j st hj

theorem idempotent_close_witness :
    lookupStage (applyStageDelta c6Map c4d2) 0 = lookupStage c6Map 0 ∧
    closeStageSafely c6St = c6St :=
  ⟨(idempotent_close c6Map 0 c6St c4d2 rfl rfl rfl rfl).1 0,
   (idempotent_close c6Map 0 c6St c4d2 rfl rfl rfl rfl).2⟩

/-- C7: state last-write-wins — when the chunk sequence carries two or
more truthy state deltas, the state in the tool-result turn's
`customContent` is exactly the last one (a replacement, not a merge). -/
theorem state_last_write_wins (chunks : List Chunk) (tid : String) (l : List PyVal)
    (v : PyVal)
    (h : chunks.filterMap extractState = l ++ [v]) (h2 : l ≠ []) :
    ∃ cc, (runExecute chunks tid).1.customContent = some cc ∧ cc.state = some v := by
  have hlast : lastStateOf chunks = some v := by
    rw [lastStateOf_eq_getLast, h, List.getLast?_concat]
  refine ⟨{ state := (chunks.foldl processChunk initExecState).state,
            attachments := some (chunks.foldl processChunk initExecState).attachments },
          rfl, ?_⟩
  show (chunks.foldl processChunk initExecState).state = some v
  rw [state_foldl chunks initExecState, hlast]

theorem state_last_write_wins_witness :
    ∃ cc, (runExecute c7Chunks "t").1.customContent = some cc ∧ cc.state = some subB :=
  state_last_write_wins c7Chunks "t" [subA] subB rfl (by simp)

/-- C8: tool-result turn shape — on normal completion `_execute`
returns a single turn with role `tool`, content the arrival-order
concatenation of all content deltas, `customContent` holding the
accumulated (last-write-wins) state and the arrival-order concatenation
of all attachment batches, and `toolCallId` echoing the originating
call's identifier. -/
theorem tool_result_shape (chunks : List Chunk) (tid : String) :
    (runExecute chunks tid).1 =
      { role := Role.tool, content := some (contentsOf chunks),
        customContent := some { state := lastStateOf chunks,
                                attachments := some (attsOf chunks) },
        toolCallId := some tid } := by
  have h1 : (chunks.foldl processChunk initExecState).content = contentsOf chunks := by
    rw [content_foldl chunks initExecState]
    show "" ++ contentsOf chunks = contentsOf chunks
    simp
  have h2 : (chunks.foldl processChunk initExecState).attachments = attsOf chunks := by
    rw [atts_foldl chunks initExecState]
    rfl
  have h3 : (chunks.foldl processChunk initExecState).state = lastStateOf chunks := by
    rw [state_foldl chunks initExecState]
    cases lastStateOf chunks <;> rfl
  show ({ role := Role.tool, content := some (chunks.foldl processChunk initExecState).content,
          customContent := some { state := (chunks.foldl processChunk initExecState).state,
                                  attachments :=
                                    some (chunks.foldl processChunk initExecState).attachments },
          toolCallId := some tid } : Message) = _
  rw [h1, h2, h3]

end MasMesh
